import Mathlib

/-!
Verification development for the watch-list reconciliation and library
deduplication engine of the YAM application (`app/electron/main/main-renderer.js`).

The JavaScript source is shallowly embedded: strings are handled through their
character lists, the NeDB-backed stores (`window.ThreadDB`, `window.GameDB`)
are modelled as in-memory lists of records threaded through the functions that
mutate them, and the external capabilities (`window.F95`, the chooser
message boxes, `window.TI.convert`, `window.GIE.convert`) are parameters of the
embedded functions.  Every definition carries a reference to the source
function it embeds.
-/

namespace YAM

/-! ## Character and string helpers -/

/-- Longest prefix of decimal digits of a character list, together with the
rest.  Models the `[0-9]+` part of the regex `/\.[0-9]+/` used in
`syncDatabaseWatchedThreads` (main-renderer.js:1024). -/
def digitSpan : List Char → List Char × List Char
  | [] => ([], [])
  | c :: cs =>
    if c.isDigit then
      let (d, r) := digitSpan cs
      (c :: d, r)
    else ([], c :: cs)

/-- Leftmost match of the JS regex `/\.[0-9]+/`: scan for the first `'.'`
immediately followed by at least one digit and return the maximal digit run
after it.  Models `url.match(/\.[0-9]+/)` (main-renderer.js:1024). -/
def findDotDigits : List Char → Option (List Char)
  | [] => none
  | c :: cs =>
    if c = '.' then
      match digitSpan cs with
      | ([], _) => findDotDigits cs
      | (d, _) => some d
    else findDotDigits cs

/-- True when the list contains a `'.'` immediately followed by a digit,
i.e. when a `/\.[0-9]+/` match already starts inside the list itself. -/
def hasDotDigit : List Char → Bool
  | c :: d :: rest => (decide (c = '.') && d.isDigit) || hasDotDigit (d :: rest)
  | _ => false

/-- Decimal value of a digit list; models `parseInt` on a digit-only string. -/
def digitsToNat (l : List Char) : Nat :=
  l.foldl (fun n c => 10 * n + (c.toNat - 48)) 0

/-- Thread id extraction of `syncDatabaseWatchedThreads`
(main-renderer.js:1024-1029): the first `/\.[0-9]+/` match with its leading
dot removed, parsed as an integer; `none` when the regex does not match. -/
def extractThreadId (url : String) : Option Nat :=
  (findDotDigits url.data).map digitsToNat

/-- First index `≥` the accumulator at which `sub` occurs in `hay`; models
`String.prototype.indexOf` restricted to the suffix scanned so far. -/
def idxOfSubAux (sub : List Char) : List Char → Nat → Option Nat
  | [], acc => if sub.isPrefixOf [] then some acc else none
  | c :: t, acc =>
    if sub.isPrefixOf (c :: t) then some acc else idxOfSubAux sub t (acc + 1)

/-- Substring containment on character lists; models
`String.prototype.includes`. -/
def containsSubList (hay sub : List Char) : Bool :=
  (idxOfSubAux sub hay 0).isSome

/-- Lexicographic order on character lists (by code point), used to model the
ascending `name` ordering of the persisted-store queries. -/
def charListLe : List Char → List Char → Bool
  | [], _ => true
  | _ :: _, [] => false
  | a :: as, b :: bs =>
    if a = b then charListLe as bs else decide (a.toNat < b.toNat)

/-- Whitespace predicate of JS `String.prototype.trim` (ASCII part plus
no-break space and BOM). -/
def jsWhitespaceChar (c : Char) : Bool :=
  c = ' ' || c = '\t' || c = '\n' || c = '\r' || c = '\x0b' || c = '\x0c' ||
  c = '\u00A0' || c = '\uFEFF'

/-- Both-ends whitespace trimming; models `String.prototype.trim`. -/
def jsTrim (l : List Char) : List Char :=
  ((l.dropWhile jsWhitespaceChar).reverse.dropWhile jsWhitespaceChar).reverse

/-- Character class of the regex `/[/\\?%*:|"<>]/g` stripped by
`cleanGameName` (main-renderer.js:366). -/
def isSpecialChar (c : Char) : Bool :=
  c = '/' || c = '\\' || c = '?' || c = '%' || c = '*' || c = ':' ||
  c = '|' || c = '"' || c = '<' || c = '>'

/-- Scan for the closing `']'` of a bracketed tag: the JS lazy group
`\[(.*?)\]` matches up to the first `']'` provided no line terminator
(which `.` cannot match) occurs before it.  Returns the rest after the
`']'` on success. -/
def findCloseBracket : List Char → Option (List Char)
  | [] => none
  | c :: rest =>
    if c = ']' then some rest
    else if c = '\n' || c = '\r' || c = '\u2028' || c = '\u2029' then none
    else findCloseBracket rest

/-- Fuelled removal of bracketed tag groups, following the global regex
replace `name.replace(/\[(.*?)\]/g, "")` (main-renderer.js:365-367): at each
`'['` the shortest `[...]` group without a line terminator is dropped; if no
such group closes, the `'['` is kept and scanning continues.  The fuel is an
upper bound on the number of scanning steps; `stripTags` instantiates it with
the length of the input, which always suffices because every step consumes at
least one character. -/
def stripTagsFuel : Nat → List Char → List Char
  | 0, l => l
  | _, [] => []
  | fuel + 1, c :: rest =>
    if c = '[' then
      match findCloseBracket rest with
      | some rest2 => stripTagsFuel fuel rest2
      | none => c :: stripTagsFuel fuel rest
    else c :: stripTagsFuel fuel rest

/-- Removal of every bracketed `[...]` tag group, as performed by the first
`replace` in `cleanGameName` (main-renderer.js:365-367). -/
def stripTags (l : List Char) : List Char :=
  stripTagsFuel l.length l

/-- Embedding of `cleanGameName` (main-renderer.js:363-368): remove all
`[...]` tag groups, strip the filesystem-special characters, and trim
whitespace. -/
def cleanGameName (name : String) : String :=
  String.mk (jsTrim ((stripTags name.data).filter (fun c => !isSpecialChar c)))

/-- Character-wise upper-casing; models `String.prototype.toUpperCase` as used
on the names handled here. -/
def upperStr (s : String) : String :=
  String.mk (s.data.map Char.toUpper)

/-- Embedding of `getGameVersionFromName` (main-renderer.js:829-842): search
the upper-cased name for the literal marker `"[V."`; when found, the version
is the substring of the original name from just after the marker up to the
next `']'` (the empty string when no `']'` follows, as `substr` with a
negative length yields `""`); otherwise `"Unknown"`. -/
def getGameVersionFromName (name : String) : String :=
  match idxOfSubAux ['[', 'V', '.'] (name.data.map Char.toUpper) 0 with
  | none => "Unknown"
  | some idx =>
    match idxOfSubAux [']'] (name.data.drop (idx + 3)) 0 with
    | none => ""
    | some off => String.mk ((name.data.drop (idx + 3)).take off)

/-! ## Thread watch synchronizer (`syncDatabaseWatchedThreads`, main-renderer.js:1020-1062)

The remote catalog `window.F95.getGameDataFromURL` composed with
`window.TI.convert` is modelled as a function `remote : String → TGameInfo`
("the remote catalog returning the same data" for a given URL).  The NeDB
store `window.ThreadDB` is modelled as a list of records plus a fresh-`_id`
counter; `search` filters, `insert` appends with a fresh `_id`, `write`
replaces the record with the same `_id`, `delete` removes by `_id`. -/

/-- Remote thread data relevant to the synchronizer: the result of
`window.TI.convert(await window.F95.getGameDataFromURL(url))` before any flag
or `_id` adjustment.  Modelled from the spec: `RemoteGameInfo` is opaque
metadata with at least an integer `id` and a `name`; the converted record also
carries the thread `url`. -/
structure TGameInfo where
  id : Nat
  url : String
  name : String
deriving DecidableEq, Repr

/-- A persisted watched-thread record (`ThreadRecord` of the spec): `dbId` is
the NeDB `_id` assigned by the store, `id` the remote thread id. -/
structure ThreadRecord where
  dbId : Nat
  id : Nat
  url : String
  name : String
  updateAvailable : Bool
  markedAsRead : Bool
deriving DecidableEq, Repr

/-- The `window.ThreadDB` store: records in insertion order plus the next
fresh `_id`. -/
structure ThreadDB where
  recs : List ThreadRecord
  nextId : Nat
deriving DecidableEq, Repr

/-- The empty thread store. -/
def emptyThreadDB : ThreadDB := ⟨[], 0⟩

/-- Store operations performed during a sync pass, used to state that a pass
performs no inserts, updates, or deletions. -/
inductive DBOp where
  | ins (r : ThreadRecord)
  | wr (r : ThreadRecord)
  | del (dbId : Nat)
deriving DecidableEq, Repr

/-- Modelled from the spec: `window.TI.convert` (not under `src/`) builds a
fresh `ThreadRecord` from remote info with `updateAvailable = false` and
`markedAsRead = false` ("construct a new `ThreadRecord` with
`updateAvailable = false`, `markedAsRead = false`"); the `_id` is assigned by
the store at insertion. -/
def convertThread (g : TGameInfo) (dbId : Nat) : ThreadRecord :=
  ⟨dbId, g.id, g.url, g.name, false, false⟩

/-- `window.ThreadDB.search({id: id})` (main-renderer.js:1033-1035). -/
def searchThreadById (db : ThreadDB) (i : Nat) : List ThreadRecord :=
  db.recs.filter (fun t => t.id == i)

/-- The record written in the update branch (main-renderer.js:1046-1052):
fresh remote info converted, `updateAvailable = true`, `markedAsRead = false`,
and the existing database `_id`. -/
def updatedThreadRecord (remote : String → TGameInfo) (url : String)
    (dbId : Nat) : ThreadRecord :=
  { convertThread (remote url) dbId with
    updateAvailable := true, markedAsRead := false }

/-- One iteration of the `for (const url of urlList)` loop body after a
successful id extraction (main-renderer.js:1032-1053): insert a fresh record
when none with this id exists; skip when the stored `url` equals the input
URL; otherwise rewrite the record (same `_id`) with fresh remote info,
`updateAvailable = true` and `markedAsRead = false`. -/
def processWatchUrl (remote : String → TGameInfo) (db : ThreadDB) (url : String)
    (i : Nat) : ThreadDB × List DBOp :=
  match searchThreadById db i with
  | [] =>
    let r := convertThread (remote url) db.nextId
    (⟨db.recs ++ [r], db.nextId + 1⟩, [DBOp.ins r])
  | t :: _ =>
    if t.url = url then (db, [])
    else
      let r := updatedThreadRecord remote url t.dbId
      (⟨db.recs.map (fun x => if x.dbId == r.dbId then r else x), db.nextId⟩,
       [DBOp.wr r])

/-- The insert/update loop of `syncDatabaseWatchedThreads`
(main-renderer.js:1021-1054): returns the resulting store, the `recentIDs`
list of successfully extracted ids, and the store operations performed.
URLs whose id cannot be extracted are skipped (`continue` after the warning
log). -/
def runWatchUrls (remote : String → TGameInfo) (db : ThreadDB) :
    List String → ThreadDB × List Nat × List DBOp
  | [] => (db, [], [])
  | u :: rest =>
    match extractThreadId u with
    | none => runWatchUrls remote db rest
    | some i =>
      let s := processWatchUrl remote db u i
      let t := runWatchUrls remote s.1 rest
      (t.1, i :: t.2.1, s.2 ++ t.2.2)

/-- The `recentIDs` list accumulated by a sync pass over `urlList`. -/
def extractedIds : List String → List Nat
  | [] => []
  | u :: rest =>
    match extractThreadId u with
    | none => extractedIds rest
    | some i => i :: extractedIds rest

/-- The unsubscribe pass of `syncDatabaseWatchedThreads`
(main-renderer.js:1056-1061): delete every record whose `id` is not in
`recentIDs`. -/
def removeUnsubscribed (db : ThreadDB) (ids : List Nat) : ThreadDB × List DBOp :=
  (⟨db.recs.filter (fun t => ids.contains t.id), db.nextId⟩,
   (db.recs.filter (fun t => !(ids.contains t.id))).map (fun t => DBOp.del t.dbId))

/-- Embedding of `syncDatabaseWatchedThreads` (main-renderer.js:1020-1062),
instrumented with the list of store operations performed: the insert/update
loop over the URL list, followed (exactly once, not interleaved) by the
unsubscribe pass over the accumulated `recentIDs`. -/
def syncDatabaseWatchedThreadsOps (remote : String → TGameInfo) (db : ThreadDB)
    (urlList : List String) : ThreadDB × List DBOp :=
  let s := runWatchUrls remote db urlList
  let d := removeUnsubscribed s.1 s.2.1
  (d.1, s.2.2 ++ d.2)

/-- The store left by a sync pass. -/
def syncDatabaseWatchedThreads (remote : String → TGameInfo) (db : ThreadDB)
    (urlList : List String) : ThreadDB :=
  (syncDatabaseWatchedThreadsOps remote db urlList).1

/-- Well-formedness of a thread store, an invariant of every store reachable
through the NeDB layer: `_id`s are pairwise distinct and below the fresh-id
counter. -/
def WFThreadDB (db : ThreadDB) : Prop :=
  (db.recs.map (fun r => r.dbId)).Nodup ∧ ∀ r ∈ db.recs, r.dbId < db.nextId

/-! ## Game records and `getUpdatedThreads` (main-renderer.js:1069-1087) -/

/-- A persisted game-library record (`GameRecord` of the spec): `id` is the
remote id (`GameRecord.remoteId`). -/
structure GameRecord where
  id : Nat
  name : String
  version : String
  gameDirectory : String
  mod : Bool
deriving DecidableEq, Repr

/-- Case-insensitive name key used for the ascending `name` ordering. -/
def nameKey (t : ThreadRecord) : List Char :=
  t.name.data.map Char.toLower

/-- Ordering of the `{name: 1}` sort hint of `window.ThreadDB.search`
(main-renderer.js:1074-1076).  Modelled from the spec: the store query is an
external capability and the spec fixes its ordering as "ordered ascending by
name (case-insensitive)". -/
def threadNameLe (a b : ThreadRecord) : Bool :=
  charListLe (nameKey a) (nameKey b)

/-- Embedding of `getUpdatedThreads` (main-renderer.js:1069-1087): query the
thread store for `updateAvailable = true, markedAsRead = false` ordered by
name, then drop every thread whose id is also a game-library id. -/
def getUpdatedThreads (games : List GameRecord) (db : ThreadDB) :
    List ThreadRecord :=
  let threads :=
    (db.recs.filter (fun t => t.updateAvailable && !t.markedAsRead)).mergeSort
      threadNameLe
  threads.filter (fun t => (games.filter (fun g => g.id == t.id)).length == 0)

/-! ## Game ingestion pipeline (`getGameFromPath(s)`, main-renderer.js:738-821) -/

/-- Remote catalog search result (`RemoteGameInfo` of the spec): opaque
metadata with at least `id`, `name`, `author`, `version`; a `mod` flag is part
of the opaque remote metadata carried into the converted `GameRecord`. -/
structure RemoteGameInfo where
  id : Nat
  name : String
  author : String
  version : String
  mod : Bool
deriving DecidableEq, Repr

/-- Directory information derived by `getDirInfo` (main-renderer.js:561-576). -/
structure DirInfo where
  path : String
  name : String
  version : String
  mod : Bool
deriving DecidableEq, Repr

/-- Embedding of `getDirInfo` (main-renderer.js:561-576); `dirName` models the
external `window.API.getDirName` capability. -/
def getDirInfo (dirName : String → String) (path : String) : DirInfo :=
  let unparsedName := dirName path
  { path := path
    name := cleanGameName unparsedName
    version := getGameVersionFromName unparsedName
    mod := containsSubList (unparsedName.data.map Char.toUpper)
      ['[', 'M', 'O', 'D', ']'] }

/-- External capabilities consumed by the ingestion pipeline:
`dirName` is `window.API.getDirName`; `search` is `window.F95.getGameData`
(which may fail with a transport error, modelled as `Except`); `choose` is the
`require-messagebox` chooser returning the id named by the pressed button, or
`none` for the close button; `convert` is `window.GIE.convert` (not under
`src/`), modelled from the spec as producing the `GameRecord`-shaped merge of
the remote metadata. -/
structure IngestEnv where
  dirName : String → String
  search : String → Bool → Except String (List RemoteGameInfo)
  choose : String → List RemoteGameInfo → Option Nat
  convert : RemoteGameInfo → GameRecord

/-- Terminal outcome of ingesting one directory path. -/
inductive IngestOutcome where
  | noGameFound (name : String)
  | cancelled
  | alreadyListed (name : String)
  | added (name : String)
deriving DecidableEq, Repr

/-- The chooser prompt built at main-renderer.js:788-789. -/
def chooserMessage (d : DirInfo) : String :=
  let baseMessage := d.name ++ " (" ++ d.version ++ ")"
  if d.mod then baseMessage ++ " [MOD]" else baseMessage

/-- Game selection of `getGameFromPath` (main-renderer.js:786-791 together
with `requireUserToSelectGameWithSameName`, main-renderer.js:898-933): the
single list head by default, and for more than one result the candidate whose
id matches the button chosen by the user (`null`/`undefined`, i.e. `none`,
when the user closes the box or the chosen id matches no candidate). -/
def selectGame (env : IngestEnv) (d : DirInfo) (g0 : RemoteGameInfo)
    (gamelist : List RemoteGameInfo) : Option RemoteGameInfo :=
  if gamelist.length > 1 then
    match env.choose (chooserMessage d) gamelist with
    | none => none
    | some k => gamelist.find? (fun x => x.id == k)
  else some g0

/-- The record persisted by `getGameFromPath` (main-renderer.js:808-814): the
converted remote metadata with the local `DirInfo.version` and the directory
path as `gameDirectory`. -/
def mergedGameRecord (env : IngestEnv) (sel : RemoteGameInfo)
    (d : DirInfo) : GameRecord :=
  { env.convert sel with version := d.version, gameDirectory := d.path }

/-- Embedding of `getGameFromPath` (main-renderer.js:767-821): parse the
directory name, search the remote catalog by name and mod flag, resolve
multiple matches through the chooser, reject ids already in the game library,
and otherwise persist the converted remote info merged with the local
`version` and `gameDirectory` (main-renderer.js:808-814). -/
def getGameFromPath (env : IngestEnv) (games : List GameRecord)
    (path : String) : Except String (IngestOutcome × List GameRecord) :=
  let dirInfo := getDirInfo env.dirName path
  match env.search dirInfo.name dirInfo.mod with
  | Except.error e => Except.error e
  | Except.ok gamelist =>
    match gamelist with
    | [] => Except.ok (IngestOutcome.noGameFound dirInfo.name, games)
    | g0 :: _ =>
      match selectGame env dirInfo g0 gamelist with
      | none => Except.ok (IngestOutcome.cancelled, games)
      | some selectedGame =>
        if (games.filter (fun g => g.id == selectedGame.id)).length != 0 then
          Except.ok (IngestOutcome.alreadyListed selectedGame.name, games)
        else
          let converted := mergedGameRecord env selectedGame dirInfo
          Except.ok (IngestOutcome.added selectedGame.name, games ++ [converted])

/-- Per-path result of a batch ingestion: either the outcome of the item or
the caught error that was logged and reported (main-renderer.js:744-757). -/
inductive BatchOutcome where
  | done (o : IngestOutcome)
  | failed (e : String)
deriving DecidableEq, Repr

/-- Embedding of `getGameFromPaths` (main-renderer.js:738-759): each path runs
the full per-item pipeline; a thrown error is caught, logged and reported
(recorded here as `BatchOutcome.failed`), and processing continues with the
next path against the unchanged library. -/
def getGameFromPaths (env : IngestEnv) (games : List GameRecord) :
    List String → List GameRecord × List BatchOutcome
  | [] => (games, [])
  | p :: rest =>
    match getGameFromPath env games p with
    | Except.ok s =>
      let t := getGameFromPaths env s.2 rest
      (t.1, BatchOutcome.done s.1 :: t.2)
    | Except.error e =>
      let t := getGameFromPaths env games rest
      (t.1, BatchOutcome.failed e :: t.2)

/-! ## Library deduplication (`getUnlistedGamesInArrayOfPath`, main-renderer.js:850-889) -/

/-- The constant `MAX_NUMBER_OF_PRESENT_GAMES_FOR_MESSAGES`
(main-renderer.js:852). -/
def maxNumberOfPresentGamesForMessages : Nat := 5

/-- User notices sent by `getUnlistedGamesInArrayOfPath` via
`sendToastToUser` (main-renderer.js:873-887). -/
inductive ToastMsg where
  | alreadyListed (gamename : String)
  | multipleDuplicates (number : Nat)
deriving DecidableEq, Repr

/-- The partition loop of `getUnlistedGamesInArrayOfPath`
(main-renderer.js:863-871): paths whose cleaned, upper-cased directory name is
not among the listed game names go to `gameFolderPaths`, the others contribute
their cleaned display name to `alreadyPresentGames`. -/
def collectUnlisted (dirName : String → String) (listedGameNames : List String) :
    List String → List String × List String
  | [] => ([], [])
  | p :: rest =>
    let gamename := cleanGameName (dirName p)
    let acc := collectUnlisted dirName listedGameNames rest
    if listedGameNames.contains (upperStr gamename) then
      (acc.1, gamename :: acc.2)
    else (p :: acc.1, acc.2)

/-- Embedding of `getUnlistedGamesInArrayOfPath` (main-renderer.js:850-889):
returns the unlisted paths, the duplicate display names, and the toasts
emitted (one `alreadyListed` notice per duplicate when at most
`maxNumberOfPresentGamesForMessages` duplicates were found, otherwise a single
aggregate `multipleDuplicates` notice with the count). -/
def getUnlistedGamesInArrayOfPath (dirName : String → String)
    (games : List GameRecord) (paths : List String) :
    List String × List String × List ToastMsg :=
  let listedGameNames := games.map (fun game => upperStr (cleanGameName game.name))
  let acc := collectUnlisted dirName listedGameNames paths
  let toasts :=
    if acc.2.length ≤ maxNumberOfPresentGamesForMessages then
      acc.2.map ToastMsg.alreadyListed
    else [ToastMsg.multipleDuplicates acc.2.length]
  (acc.1, acc.2, toasts)

/-! ## Definitions taken from the specification text (for refinement claims) -/

/-- Follows the spec's words, not the source: "extract `remoteId` as the
integer value of the URL's trailing numeric path segment" — the maximal run of
digits ending the URL (ignoring one trailing `'/'`), `none` when the URL does
not end in a digit. -/
def specTrailingNumericId (url : String) : Option Nat :=
  let cs := if url.data.getLast? = some '/' then url.data.dropLast else url.data
  let ds := (cs.reverse.takeWhile Char.isDigit).reverse
  if ds.isEmpty then none else some (digitsToNat ds)

/-! ## Concrete instances used in witnesses and counterexamples -/

/-- A remote catalog whose returned thread `url` differs from the watch URL
(used to exhibit the non-idempotence of the sync pass). -/
def remoteUrlMismatch : String → TGameInfo := fun _ => ⟨1, "s.1", "n"⟩

/-- A remote catalog returning the watch URL itself and the id `1`. -/
def remoteKeepOne : String → TGameInfo := fun u => ⟨1, u, "n"⟩

/-- A remote catalog returning the watch URL itself and the id `123`. -/
def remoteKeep123 : String → TGameInfo := fun u => ⟨123, u, "n"⟩

/-- A one-record thread store holding thread `1` under URL `"a.1"`. -/
def threadDBOne : ThreadDB := ⟨[⟨0, 1, "a.1", "n", false, false⟩], 1⟩

/-- An ingestion environment whose remote search yields the single candidate
`id = 77`, not flagged as a mod. -/
def envSingleMatch : IngestEnv :=
  ⟨id, fun _ _ => Except.ok [⟨77, "X", "a", "1.0", false⟩], fun _ _ => none,
   fun g => ⟨g.id, g.name, g.version, "", g.mod⟩⟩

/-- An ingestion environment with three same-name candidates whose chooser
presses the button named `77`. -/
def envThreeMatches : IngestEnv :=
  ⟨id,
   fun _ _ => Except.ok
     [⟨11, "Game X", "a", "1", false⟩, ⟨77, "Game X", "b", "2", false⟩,
      ⟨99, "Game X", "c", "3", false⟩],
   fun _ _ => some 77,
   fun g => ⟨g.id, g.name, g.version, "", g.mod⟩⟩

/-- An ingestion environment whose remote search fails (transport error) on
the name `"bad"` and finds nothing elsewhere. -/
def envFailOnBad : IngestEnv :=
  ⟨id,
   fun n _ => if n = "bad" then Except.error "boom" else Except.ok [],
   fun _ _ => none,
   fun g => ⟨g.id, g.name, g.version, "", g.mod⟩⟩

/-- A one-record game library used in witnesses. -/
def gamesWitness : List GameRecord := [⟨1, "Game A [v2]", "1", "d", false⟩]

/-- Candidate paths used in witnesses. -/
def pathsWitness : List String := ["Game A", "Other"]

/-- A game library owning remote id 5, used in witnesses. -/
def installedGamesWitness : List GameRecord := [⟨5, "Installed", "1", "d", false⟩]

/-- A thread store with an updated-unread thread (id 2), an updated-unread
thread of an installed game (id 5), and an updated-but-read thread (id 3). -/
def updatedThreadDBWitness : ThreadDB :=
  ⟨[⟨0, 5, "u5", "b", true, false⟩, ⟨1, 2, "u2", "a", true, false⟩,
    ⟨2, 3, "u3", "c", true, true⟩], 3⟩

/-! ## Scanning lemmas for `idxOfSubAux` and the id extraction -/

theorem isPrefixOf_self_append (s z : List Char) : s.isPrefixOf (s ++ z) = true := by
  induction s with
  | nil => simp [List.isPrefixOf]
  | cons c cs ih => simp [List.isPrefixOf, ih]

theorem idxOfSubAux_hit (sub y : List Char) (acc : Nat)
    (hp : sub.isPrefixOf y = true) : idxOfSubAux sub y acc = some acc := by
  cases y <;> simp [idxOfSubAux, hp]

theorem idxOfSubAux_skip (h : Char) (rest : List Char) :
    ∀ (x y : List Char) (acc : Nat), (∀ c ∈ x, c ≠ h) →
    idxOfSubAux (h :: rest) (x ++ y) acc =
      idxOfSubAux (h :: rest) y (acc + x.length) := by
  intro x
  induction x with
  | nil => intro y acc _; simp
  | cons c cs ih =>
    intro y acc hx
    have hc : c ≠ h := hx c (by simp)
    have hpre : (h :: rest).isPrefixOf (c :: (cs ++ y)) = false := by
      simp [List.isPrefixOf]
      intro heq
      exact absurd heq.symm hc
    have step : idxOfSubAux (h :: rest) ((c :: cs) ++ y) acc =
        idxOfSubAux (h :: rest) (cs ++ y) (acc + 1) := by
      rw [List.cons_append]
      simp [idxOfSubAux, hpre]
    rw [step, ih y (acc + 1) (fun d hd => hx d (by simp [hd]))]
    congr 1
    simp [List.length_cons]
    omega

theorem idxOfSubAux_first (sub : List Char) :
    ∀ (x y : List Char) (acc : Nat),
    (∀ p, p < x.length → sub.isPrefixOf ((x ++ y).drop p) = false) →
    sub.isPrefixOf y = true →
    idxOfSubAux sub (x ++ y) acc = some (acc + x.length) := by
  intro x
  induction x with
  | nil =>
    intro y acc _ hy
    rw [List.nil_append, idxOfSubAux_hit _ _ _ hy]
    simp
  | cons c x2 ih =>
    intro y acc hno hy
    have h0 : sub.isPrefixOf (c :: (x2 ++ y)) = false := by
      have h := hno 0 (by simp)
      simpa using h
    have step : idxOfSubAux sub ((c :: x2) ++ y) acc =
        idxOfSubAux sub (x2 ++ y) (acc + 1) := by
      rw [List.cons_append]
      simp [idxOfSubAux, h0]
    rw [step, ih y (acc + 1) (fun p hp => by
      have h := hno (p + 1) (by simp only [List.length_cons]; omega)
      simpa using h) hy]
    congr 1
    simp [List.length_cons]
    omega

theorem digitSpan_append (ds b : List Char) (hd : ∀ c ∈ ds, c.isDigit = true)
    (hb : ∀ c, b.head? = some c → c.isDigit = false) :
    digitSpan (ds ++ b) = (ds, b) := by
  induction ds with
  | nil =>
    cases b with
    | nil => rfl
    | cons c bs =>
      have : c.isDigit = false := hb c rfl
      simp [digitSpan, this]
  | cons d ds2 ih =>
    have hdd : d.isDigit = true := hd d (by simp)
    have := ih (fun c hc => hd c (by simp [hc]))
    simp [digitSpan, hdd, this]

theorem digitSpan_nondigit_head (l : List Char)
    (h : ∀ c, l.head? = some c → c.isDigit = false) :
    digitSpan l = ([], l) := by
  cases l with
  | nil => rfl
  | cons c rest =>
    have hc := h c rfl
    simp [digitSpan, hc]

theorem findDotDigits_decomp (ds b : List Char) (hds : ds ≠ [])
    (hd : ∀ c ∈ ds, c.isDigit = true)
    (hb : ∀ c, b.head? = some c → c.isDigit = false) :
    ∀ a : List Char, hasDotDigit a = false →
    findDotDigits (a ++ '.' :: (ds ++ b)) = some ds := by
  intro a
  induction a with
  | nil =>
    intro _
    rw [List.nil_append, findDotDigits]
    simp only [if_pos rfl]
    rw [digitSpan_append ds b hd hb]
    cases ds with
    | nil => exact absurd rfl hds
    | cons d ds2 => simp
  | cons c a2 ih =>
    intro ha
    have ha2 : hasDotDigit a2 = false := by
      cases a2 with
      | nil => rfl
      | cons d rest =>
        rw [hasDotDigit, Bool.or_eq_false_iff] at ha
        exact ha.2
    by_cases hc : c = '.'
    · subst hc
      have hnd : ∀ x, (a2 ++ '.' :: (ds ++ b)).head? = some x →
          x.isDigit = false := by
        intro x hx
        cases a2 with
        | nil =>
          have hx2 : x = '.' := (Option.some_inj.mp (by simpa using hx)).symm
          rw [hx2]
          decide
        | cons d rest =>
          have hx2 : x = d := (Option.some_inj.mp (by simpa using hx)).symm
          rw [hasDotDigit, Bool.or_eq_false_iff] at ha
          have hda := ha.1
          rw [hx2]
          simpa using hda
      rw [List.cons_append, findDotDigits]
      simp only [if_pos rfl]
      rw [digitSpan_nondigit_head _ hnd]
      exact ih ha2
    · rw [List.cons_append, findDotDigits]
      simp only [if_neg hc]
      exact ih ha2

/-! ## C10: directory-name version parsing -/

/-- C10: directory-name parsing is a deterministic total function: when the
upper-cased name does not contain the marker `"[V."` the version is
`"Unknown"`, and when the name decomposes as `a ++ m ++ v ++ ']' :: b` where
`m` upper-cases to the marker, no occurrence of the marker starts at any
earlier position (so `m` is the first, case-insensitive occurrence) and `v`
is `']'`-free, the version is exactly `v`, the substring from just after the
marker to the next `']'`. -/
theorem getGameVersionFromName_spec :
    (∀ name : String,
      containsSubList (name.data.map Char.toUpper) ['[', 'V', '.'] = false →
      getGameVersionFromName name = "Unknown") ∧
    (∀ a m v b : List Char,
      (∀ p, p < a.length →
        (['[', 'V', '.'].isPrefixOf
          (((a ++ m ++ (v ++ ']' :: b)).map Char.toUpper).drop p)) = false) →
      m.map Char.toUpper = ['[', 'V', '.'] →
      ']' ∉ v →
      getGameVersionFromName (String.mk (a ++ m ++ (v ++ ']' :: b))) =
        String.mk v) := by
  constructor
  · intro name h
    have hnone : idxOfSubAux ['[', 'V', '.'] (name.data.map Char.toUpper) 0 = none := by
      unfold containsSubList at h
      exact Option.not_isSome_iff_eq_none.mp (by simp [h])
    unfold getGameVersionFromName
    rw [show (String.data name) = name.data from rfl, hnone]
  · intro a m v b ha hm hv
    have hmlen : m.length = 3 := by
      have := congrArg List.length hm
      simpa using this
    have hidx :
        idxOfSubAux ['[', 'V', '.']
          ((a ++ m ++ (v ++ ']' :: b)).map Char.toUpper) 0 = some a.length := by
      rw [List.append_assoc, List.map_append]
      rw [idxOfSubAux_first ['[', 'V', '.'] (a.map Char.toUpper) _ 0
        (fun p hp => by
          have h := ha p (by simpa using hp)
          rw [List.append_assoc, List.map_append] at h
          exact h)
        (by rw [List.map_append, ← hm]; exact isPrefixOf_self_append _ _)]
      simp
    have hdrop :
        (a ++ m ++ (v ++ ']' :: b)).drop (a.length + 3) = v ++ ']' :: b := by
      have : a.length + 3 = (a ++ m).length := by
        simp [List.length_append, hmlen]
      rw [this, List.drop_left]
    have hclose :
        idxOfSubAux [']'] (v ++ ']' :: b) 0 = some v.length := by
      rw [idxOfSubAux_skip ']' [] v (']' :: b) 0 (fun c hc => by
        intro hcc
        exact hv (hcc ▸ hc))]
      rw [idxOfSubAux_hit _ _ _ (by simp [List.isPrefixOf])]
      simp
    unfold getGameVersionFromName
    simp only [hidx, hdrop, hclose, List.take_left]

/-- Witness for `getGameVersionFromName_spec`: a marker-free name parses to
`"Unknown"`, and a name with an earlier bracketed tag and a lower-case
marker parses to the substring between the marker and the next `']'`. -/
theorem getGameVersionFromName_spec_witness :
    getGameVersionFromName "plain" = "Unknown" ∧
    getGameVersionFromName
        (String.mk ("[MOD] Game ".data ++ "[v.".data ++ ("1.2".data ++ ']' :: []))) =
      String.mk "1.2".data :=
  ⟨getGameVersionFromName_spec.1 "plain" (by decide),
   getGameVersionFromName_spec.2 "[MOD] Game ".data "[v.".data "1.2".data []
     (by decide) (by decide) (by decide)⟩

/-! ## C2: watch-URL id extraction -/

theorem runWatchUrls_skip (remote : String → TGameInfo) (u : String)
    (hu : extractThreadId u = none) :
    ∀ (pre post : List String) (db : ThreadDB),
    runWatchUrls remote db (pre ++ u :: post) =
      runWatchUrls remote db (pre ++ post) := by
  intro pre
  induction pre with
  | nil =>
    intro post db
    simp [runWatchUrls, hu]
  | cons p pre2 ih =>
    intro post db
    cases h : extractThreadId p with
    | none => simp only [List.cons_append, runWatchUrls, h]; exact ih post db
    | some i =>
      simp only [List.cons_append, runWatchUrls, h, List.append_eq]
      rw [ih post _]

/-- C2 counterexample: on the URL `"https://x.to/v1.5/thread.123"` the code
extracts the digits after the first dot-digit occurrence (`5`), not the
integer value of the trailing numeric path segment (`123`); the two
extractions disagree. -/
theorem extractThreadId_counterexample :
    extractThreadId "https://x.to/v1.5/thread.123" = some 5 ∧
    specTrailingNumericId "https://x.to/v1.5/thread.123" = some 123 ∧
    extractThreadId "https://x.to/v1.5/thread.123" ≠
      specTrailingNumericId "https://x.to/v1.5/thread.123" :=
  ⟨by decide, by decide, by decide⟩

/-- C2 (amended): the synchronizer extracts `remoteId` as the integer value of
the first run of digits immediately preceded by a `'.'` anywhere in the URL —
for every decomposition `a ++ "." ++ ds ++ b` in which no dot-digit pair
occurs already inside the prefix `a` (so this dot starts the first match),
`ds` is a nonempty digit run and `b` does not extend it, the extracted id is
the value of `ds`; a URL from which no such id can be extracted is skipped
and contributes nothing: a sync pass with it performs exactly the store
operations of the same pass without it. -/
theorem extractThreadId_spec :
    (∀ (remote : String → TGameInfo) (db : ThreadDB) (pre post : List String)
      (u : String), extractThreadId u = none →
      syncDatabaseWatchedThreadsOps remote db (pre ++ u :: post) =
        syncDatabaseWatchedThreadsOps remote db (pre ++ post)) ∧
    (∀ a ds b : List Char, hasDotDigit a = false → ds ≠ [] →
      (∀ c ∈ ds, c.isDigit = true) →
      (∀ c, b.head? = some c → c.isDigit = false) →
      extractThreadId (String.mk (a ++ '.' :: (ds ++ b))) =
        some (digitsToNat ds)) := by
  constructor
  · intro remote db pre post u hu
    unfold syncDatabaseWatchedThreadsOps
    rw [runWatchUrls_skip remote u hu pre post db]
  · intro a ds b ha hds hd hb
    unfold extractThreadId
    rw [show (String.mk (a ++ '.' :: (ds ++ b))).data = a ++ '.' :: (ds ++ b)
        from rfl]
    rw [findDotDigits_decomp ds b hds hd hb a ha]
    rfl

/-- Witness for `extractThreadId_spec`: a URL that cannot be parsed is a
sync no-op, and a realistic watch URL (domain dot ahead of the id) extracts
the id after the first dot-digit occurrence. -/
theorem extractThreadId_spec_witness :
    syncDatabaseWatchedThreadsOps remoteKeepOne emptyThreadDB ["nope"] =
      syncDatabaseWatchedThreadsOps remoteKeepOne emptyThreadDB [] ∧
    extractThreadId (String.mk ("https://f95zone.to/threads/g".data ++
        '.' :: ("456".data ++ "/".data))) =
      some (digitsToNat "456".data) :=
  ⟨extractThreadId_spec.1 remoteKeepOne emptyThreadDB [] [] "nope" (by decide),
   extractThreadId_spec.2 "https://f95zone.to/threads/g".data "456".data
     "/".data (by decide) (by decide) (by decide) (by decide)⟩

/-! ## C4: update-on-URL-change, skip-on-equal -/

/-- C4: when an input URL's extracted id matches an existing record
(`thread[0]` of the store query) whose stored URL differs from the input URL,
the record is rewritten in place — same number of records, same fresh-id
counter, a single write operation — with `updateAvailable = true`,
`markedAsRead = false`, and the existing `_id` preserved; when the stored URL
equals the input URL verbatim the store is left untouched and no operation is
performed. -/
theorem processWatchUrl_update_spec (remote : String → TGameInfo)
    (db : ThreadDB) (url : String) (i : Nat) (t : ThreadRecord)
    (ts : List ThreadRecord) (hs : searchThreadById db i = t :: ts) :
    (t.url ≠ url →
      processWatchUrl remote db url i =
        (⟨db.recs.map (fun x =>
            if x.dbId == (updatedThreadRecord remote url t.dbId).dbId then
              updatedThreadRecord remote url t.dbId
            else x), db.nextId⟩,
         [DBOp.wr (updatedThreadRecord remote url t.dbId)]) ∧
      (processWatchUrl remote db url i).1.recs.length = db.recs.length ∧
      (processWatchUrl remote db url i).1.nextId = db.nextId ∧
      (updatedThreadRecord remote url t.dbId).updateAvailable = true ∧
      (updatedThreadRecord remote url t.dbId).markedAsRead = false ∧
      (updatedThreadRecord remote url t.dbId).dbId = t.dbId) ∧
    (t.url = url → processWatchUrl remote db url i = (db, [])) := by
  constructor
  · intro hne
    refine ⟨by simp [processWatchUrl, hs, hne], ?_, ?_, rfl, rfl, rfl⟩
    · simp [processWatchUrl, hs, hne]
    · simp [processWatchUrl, hs, hne]
  · intro heq
    simp [processWatchUrl, hs, heq]

/-- Witness for `processWatchUrl_update_spec` at a concrete store. -/
theorem processWatchUrl_update_spec_witness :
    (processWatchUrl remoteKeepOne threadDBOne "b.1" 1).1.recs.length =
      threadDBOne.recs.length ∧
    processWatchUrl remoteKeepOne threadDBOne "a.1" 1 = (threadDBOne, []) :=
  ⟨((processWatchUrl_update_spec remoteKeepOne threadDBOne "b.1" 1
      ⟨0, 1, "a.1", "n", false, false⟩ [] rfl).1 (by decide)).2.1,
   (processWatchUrl_update_spec remoteKeepOne threadDBOne "a.1" 1
      ⟨0, 1, "a.1", "n", false, false⟩ [] rfl).2 rfl⟩

/-! ## C9: insertion of unseen threads -/

/-- C9: an input URL whose extracted id matches no existing record leads to
the insertion (a single append with a fresh `_id`) of the converted remote
record, which carries `updateAvailable = false` and `markedAsRead = false`;
in particular a sync of a single well-formed URL with id `123` into an empty
store leaves exactly one record with `remoteId = 123` and
`updateAvailable = false`, provided the remote record carries the id `123`
embedded in the URL. -/
theorem syncInsert_spec :
    (∀ (remote : String → TGameInfo) (db : ThreadDB) (url : String) (i : Nat),
      extractThreadId url = some i →
      searchThreadById db i = [] →
      processWatchUrl remote db url i =
        (⟨db.recs ++ [convertThread (remote url) db.nextId], db.nextId + 1⟩,
         [DBOp.ins (convertThread (remote url) db.nextId)]) ∧
      (convertThread (remote url) db.nextId).updateAvailable = false ∧
      (convertThread (remote url) db.nextId).markedAsRead = false) ∧
    (∀ (remote : String → TGameInfo) (url : String),
      extractThreadId url = some 123 → (remote url).id = 123 →
      (syncDatabaseWatchedThreads remote emptyThreadDB [url]).recs =
        [⟨0, 123, (remote url).url, (remote url).name, false, false⟩]) := by
  constructor
  · intro remote db url i _ hs
    exact ⟨by simp [processWatchUrl, hs], rfl, rfl⟩
  · intro remote url hurl hid
    simp only [syncDatabaseWatchedThreads, syncDatabaseWatchedThreadsOps,
      runWatchUrls, hurl, processWatchUrl, searchThreadById, emptyThreadDB,
      removeUnsubscribed, convertThread]
    simp [hid, List.contains]

/-- Witness for `syncInsert_spec` at a concrete remote and URL. -/
theorem syncInsert_spec_witness :
    processWatchUrl remoteKeep123 emptyThreadDB "x.123" 123 =
      (⟨emptyThreadDB.recs ++
          [convertThread (remoteKeep123 "x.123") emptyThreadDB.nextId],
        emptyThreadDB.nextId + 1⟩,
       [DBOp.ins (convertThread (remoteKeep123 "x.123") emptyThreadDB.nextId)]) ∧
    (syncDatabaseWatchedThreads remoteKeep123 emptyThreadDB ["x.123"]).recs =
      [⟨0, 123, "x.123", "n", false, false⟩] :=
  ⟨(syncInsert_spec.1 remoteKeep123 emptyThreadDB "x.123" 123 (by decide)
      rfl).1,
   syncInsert_spec.2 remoteKeep123 "x.123" (by decide) rfl⟩

/-! ## C6: duplicate rejection partition -/

theorem contains_eq_true_iff {α : Type} [BEq α] [LawfulBEq α] (l : List α)
    (x : α) : l.contains x = true ↔ x ∈ l := by
  simp [List.contains, List.elem_iff]

theorem collectUnlisted_eq (dirName : String → String) (names : List String) :
    ∀ paths : List String,
    collectUnlisted dirName names paths =
      (paths.filter (fun p =>
         !(names.contains (upperStr (cleanGameName (dirName p))))),
       (paths.filter (fun p =>
         names.contains (upperStr (cleanGameName (dirName p))))).map
         (fun p => cleanGameName (dirName p))) := by
  intro paths
  induction paths with
  | nil => rfl
  | cons p rest ih =>
    cases h : names.contains (upperStr (cleanGameName (dirName p))) with
    | true =>
      have hm : upperStr (cleanGameName (dirName p)) ∈ names :=
        (contains_eq_true_iff names _).mp h
      simp [collectUnlisted, h, ih, List.filter_cons, hm]
    | false =>
      have hm : ¬ upperStr (cleanGameName (dirName p)) ∈ names := fun hmem => by
        rw [(contains_eq_true_iff names _).mpr hmem] at h
        cases h
      simp [collectUnlisted, h, ih, List.filter_cons, hm]

/-- C6: a candidate path whose normalized directory name (tags and special
characters stripped, trimmed, upper-cased) equals the normalized name of some
library record is excluded from the returned ingestion list, every other path
is returned; the duplicate display names are collected in path order; at most
`maxNumberOfPresentGamesForMessages` duplicates yield one notice per
duplicate name, more yield a single aggregate notice carrying the count. -/
theorem getUnlistedGamesInArrayOfPath_spec (dirName : String → String)
    (games : List GameRecord) (paths : List String) :
    ((getUnlistedGamesInArrayOfPath dirName games paths).1 =
      paths.filter (fun p =>
        !((games.map (fun g => upperStr (cleanGameName g.name))).contains
           (upperStr (cleanGameName (dirName p)))))) ∧
    (∀ p ∈ paths,
      (p ∈ (getUnlistedGamesInArrayOfPath dirName games paths).1 ↔
        ∀ g ∈ games,
          upperStr (cleanGameName g.name) ≠
            upperStr (cleanGameName (dirName p)))) ∧
    ((getUnlistedGamesInArrayOfPath dirName games paths).2.1 =
      (paths.filter (fun p =>
        (games.map (fun g => upperStr (cleanGameName g.name))).contains
          (upperStr (cleanGameName (dirName p))))).map
        (fun p => cleanGameName (dirName p))) ∧
    ((getUnlistedGamesInArrayOfPath dirName games paths).2.1.length ≤
        maxNumberOfPresentGamesForMessages →
      (getUnlistedGamesInArrayOfPath dirName games paths).2.2 =
        (getUnlistedGamesInArrayOfPath dirName games paths).2.1.map
          ToastMsg.alreadyListed) ∧
    (maxNumberOfPresentGamesForMessages <
        (getUnlistedGamesInArrayOfPath dirName games paths).2.1.length →
      (getUnlistedGamesInArrayOfPath dirName games paths).2.2 =
        [ToastMsg.multipleDuplicates
          (getUnlistedGamesInArrayOfPath dirName games paths).2.1.length]) := by
  have hcol := collectUnlisted_eq dirName
    (games.map (fun g => upperStr (cleanGameName g.name)))
  refine ⟨?_, ?_, ?_, ?_, ?_⟩
  · simp [getUnlistedGamesInArrayOfPath, hcol]
  · intro p hp
    simp only [getUnlistedGamesInArrayOfPath, hcol]
    rw [List.mem_filter]
    simp only [hp, true_and, Bool.not_eq_true']
    constructor
    · intro hfalse g hg heq
      have : upperStr (cleanGameName (dirName p)) ∈
          games.map (fun g => upperStr (cleanGameName g.name)) :=
        List.mem_map.mpr ⟨g, hg, heq⟩
      rw [← contains_eq_true_iff] at this
      rw [this] at hfalse
      cases hfalse
    · intro hall
      cases hcon : (games.map (fun g => upperStr (cleanGameName g.name))).contains
          (upperStr (cleanGameName (dirName p))) with
      | false => rfl
      | true =>
        rcases List.mem_map.mp (contains_eq_true_iff _ _ |>.mp hcon) with
          ⟨g, hg, heq⟩
        exact absurd heq (hall g hg)
  · simp [getUnlistedGamesInArrayOfPath, hcol]
  · intro h
    simp only [getUnlistedGamesInArrayOfPath] at h ⊢
    rw [if_pos h]
  · intro h
    simp only [getUnlistedGamesInArrayOfPath] at h ⊢
    rw [if_neg (by omega)]

/-- Witness for `getUnlistedGamesInArrayOfPath_spec` at a concrete library. -/
theorem getUnlistedGamesInArrayOfPath_spec_witness :
    ("Other" ∈ (getUnlistedGamesInArrayOfPath id gamesWitness pathsWitness).1 ↔
      ∀ g ∈ gamesWitness,
        upperStr (cleanGameName g.name) ≠
          upperStr (cleanGameName (id "Other"))) ∧
    (getUnlistedGamesInArrayOfPath id gamesWitness pathsWitness).2.2 =
      (getUnlistedGamesInArrayOfPath id gamesWitness pathsWitness).2.1.map
        ToastMsg.alreadyListed :=
  ⟨(getUnlistedGamesInArrayOfPath_spec id gamesWitness pathsWitness).2.1
      "Other" (by decide),
   (getUnlistedGamesInArrayOfPath_spec id gamesWitness pathsWitness).2.2.2.1
      (by decide)⟩

/-! ## C7: single persisted record on successful ingestion -/

/-- C7 counterexample: ingesting the directory `"X [MOD]"` (a mod directory,
`DirInfo.mod = true`) with a remote candidate whose converted metadata has
`mod = false` persists a record with `mod = false`: the insertion merges only
the local `version` and `gameDirectory` into the converted remote metadata,
not the local `mod` value, contradicting the claimed merge of `mod`. -/
theorem getGameFromPath_mod_counterexample :
    getGameFromPath envSingleMatch [] "X [MOD]" =
      Except.ok (IngestOutcome.added "X",
        [⟨77, "X", "Unknown", "X [MOD]", false⟩]) ∧
    (getDirInfo envSingleMatch.dirName "X [MOD]").mod = true ∧
    (⟨77, "X", "Unknown", "X [MOD]", false⟩ : GameRecord).mod ≠
      (getDirInfo envSingleMatch.dirName "X [MOD]").mod :=
  ⟨rfl, by decide, by decide⟩

/-- C7 (amended): whenever directory-path ingestion reaches insertion (one
remote match, or the chooser resolved one of several; chosen id not already a
library id), exactly one new record is appended; its id is the chosen
candidate's id (given that the external `GIE.convert` preserves the remote
id), it carries the local `DirInfo.version` and `DirInfo.path` as
`gameDirectory`, and its `mod` flag is the converted remote metadata's `mod`,
not the local `DirInfo.mod`; no other candidate is persisted. -/
theorem getGameFromPath_insert_spec (env : IngestEnv) (games : List GameRecord)
    (path : String) (d : DirInfo) (gamelist : List RemoteGameInfo)
    (g0 : RemoteGameInfo) (gs : List RemoteGameInfo) (sel : RemoteGameInfo)
    (hd : getDirInfo env.dirName path = d)
    (hsearch : env.search d.name d.mod = Except.ok gamelist)
    (hgl : gamelist = g0 :: gs)
    (hsel : selectGame env d g0 gamelist = some sel)
    (hnew : games.filter (fun g => g.id == sel.id) = [])
    (hconv : (env.convert sel).id = sel.id) :
    getGameFromPath env games path =
      Except.ok (IngestOutcome.added sel.name,
        games ++ [mergedGameRecord env sel d]) ∧
    (games ++ [mergedGameRecord env sel d]).length = games.length + 1 ∧
    (mergedGameRecord env sel d).id = sel.id ∧
    (mergedGameRecord env sel d).mod = (env.convert sel).mod := by
  subst hgl
  refine ⟨?_, by simp, by simp [mergedGameRecord, hconv], rfl⟩
  simp only [getGameFromPath]
  rw [hd, hsearch]
  simp only [hsel, hnew]
  simp

/-- Witness for `getGameFromPath_insert_spec`: three same-name candidates,
the chooser picks id 77, and exactly that candidate is persisted. -/
theorem getGameFromPath_insert_spec_witness :
    getGameFromPath envThreeMatches [] "Game X" =
      Except.ok (IngestOutcome.added "Game X",
        [] ++ [mergedGameRecord envThreeMatches ⟨77, "Game X", "b", "2", false⟩
                 ⟨"Game X", "Game X", "Unknown", false⟩]) ∧
    (mergedGameRecord envThreeMatches ⟨77, "Game X", "b", "2", false⟩
      ⟨"Game X", "Game X", "Unknown", false⟩).id = 77 :=
  ⟨(getGameFromPath_insert_spec envThreeMatches [] "Game X"
      ⟨"Game X", "Game X", "Unknown", false⟩ _ _ _
      ⟨77, "Game X", "b", "2", false⟩ (by decide) rfl rfl (by decide) rfl
      rfl).1,
   (getGameFromPath_insert_spec envThreeMatches [] "Game X"
      ⟨"Game X", "Game X", "Unknown", false⟩ _ _ _
      ⟨77, "Game X", "b", "2", false⟩ (by decide) rfl rfl (by decide) rfl
      rfl).2.2.1⟩

/-! ## C8: per-item failure isolation in batch ingestion -/

/-- C8: batch ingestion produces one outcome per input path (the batch never
aborts); an error thrown while processing one path is caught and recorded as a
failed outcome, and processing continues with the next path against the
unchanged library, while a successful item passes its updated library on. -/
theorem getGameFromPaths_batch :
    (∀ (env : IngestEnv) (games : List GameRecord) (paths : List String),
      (getGameFromPaths env games paths).2.length = paths.length) ∧
    (∀ (env : IngestEnv) (games : List GameRecord) (p : String)
      (rest : List String) (e : String),
      getGameFromPath env games p = Except.error e →
      getGameFromPaths env games (p :: rest) =
        ((getGameFromPaths env games rest).1,
         BatchOutcome.failed e :: (getGameFromPaths env games rest).2)) ∧
    (∀ (env : IngestEnv) (games : List GameRecord) (p : String)
      (rest : List String) (o : IngestOutcome) (games2 : List GameRecord),
      getGameFromPath env games p = Except.ok (o, games2) →
      getGameFromPaths env games (p :: rest) =
        ((getGameFromPaths env games2 rest).1,
         BatchOutcome.done o :: (getGameFromPaths env games2 rest).2)) := by
  refine ⟨?_, ?_, ?_⟩
  · intro env games paths
    induction paths generalizing games with
    | nil => rfl
    | cons p rest ih =>
      cases h : getGameFromPath env games p with
      | ok s => simp [getGameFromPaths, h, ih]
      | error e => simp [getGameFromPaths, h, ih]
  · intro env games p rest e h
    simp [getGameFromPaths, h]
  · intro env games p rest o games2 h
    simp [getGameFromPaths, h]

/-- Witness for `getGameFromPaths_batch`: a transport error on the first path
is recorded and the second path is still processed. -/
theorem getGameFromPaths_batch_witness :
    (getGameFromPaths envFailOnBad [] ["bad", "x"]).2.length = 2 ∧
    getGameFromPaths envFailOnBad [] ("bad" :: ["x"]) =
      ((getGameFromPaths envFailOnBad [] ["x"]).1,
       BatchOutcome.failed "boom" :: (getGameFromPaths envFailOnBad [] ["x"]).2) :=
  ⟨getGameFromPaths_batch.1 envFailOnBad [] ["bad", "x"],
   getGameFromPaths_batch.2.1 envFailOnBad [] "bad" ["x"] "boom" rfl⟩

/-! ## C5: the updated-threads view -/

theorem charListLe_trans : ∀ a b c : List Char,
    charListLe a b = true → charListLe b c = true → charListLe a c = true := by
  intro a
  induction a with
  | nil => intro b c _ _; rfl
  | cons x xs ih =>
    intro b c hab hbc
    cases b with
    | nil => simp [charListLe] at hab
    | cons y ys =>
      cases c with
      | nil => simp [charListLe] at hbc
      | cons z zs =>
        by_cases hxy : x = y
        · by_cases hyz : y = z
          · have hxz : x = z := hxy.trans hyz
            rw [charListLe, if_pos hxz]
            rw [charListLe, if_pos hxy] at hab
            rw [charListLe, if_pos hyz] at hbc
            exact ih ys zs hab hbc
          · have hlt : y.toNat < z.toNat := by
              rw [charListLe, if_neg hyz] at hbc
              exact of_decide_eq_true hbc
            have hxz : ¬x = z := fun h => hyz (by rw [← hxy]; exact h)
            rw [charListLe, if_neg hxz]
            exact decide_eq_true (by rw [hxy]; exact hlt)
        · have hlt1 : x.toNat < y.toNat := by
            rw [charListLe, if_neg hxy] at hab
            exact of_decide_eq_true hab
          by_cases hyz : y = z
          · have hxz : ¬x = z := fun h => hxy (h.trans hyz.symm)
            rw [charListLe, if_neg hxz]
            exact decide_eq_true (hyz ▸ hlt1)
          · have hlt2 : y.toNat < z.toNat := by
              rw [charListLe, if_neg hyz] at hbc
              exact of_decide_eq_true hbc
            have hxz : ¬x = z := fun h => by
              rw [h] at hlt1
              omega
            rw [charListLe, if_neg hxz]
            exact decide_eq_true (Nat.lt_trans hlt1 hlt2)

theorem charListLe_total : ∀ a b : List Char,
    (charListLe a b || charListLe b a) = true := by
  intro a
  induction a with
  | nil => intro b; simp [charListLe]
  | cons x xs ih =>
    intro b
    cases b with
    | nil => simp [charListLe]
    | cons y ys =>
      by_cases hxy : x = y
      · subst hxy
        rw [charListLe, charListLe, if_pos rfl, if_pos rfl]
        exact ih ys
      · have hyx : ¬y = x := fun h => hxy h.symm
        rw [charListLe, charListLe, if_neg hxy, if_neg hyx]
        rcases Nat.lt_trichotomy x.toNat y.toNat with h | h | h
        · simp [h]
        · exact absurd (Char.eq_of_val_eq (UInt32.ext h)) hxy
        · simp [h]

theorem threadNameLe_trans (a b c : ThreadRecord) :
    threadNameLe a b = true → threadNameLe b c = true →
    threadNameLe a c = true :=
  charListLe_trans _ _ _

theorem threadNameLe_total (a b : ThreadRecord) :
    (threadNameLe a b || threadNameLe b a) = true :=
  charListLe_total _ _

/-- C5: `getUpdatedThreads` returns exactly the stored records with
`updateAvailable = true` and `markedAsRead = false` whose id is not the
id of any game-library record, ordered ascending by case-folded name; in
particular no returned thread's id exists in the game library. -/
theorem getUpdatedThreads_spec (games : List GameRecord) (db : ThreadDB) :
    (∀ r : ThreadRecord,
      r ∈ getUpdatedThreads games db ↔
        r ∈ db.recs ∧ r.updateAvailable = true ∧ r.markedAsRead = false ∧
          ∀ g ∈ games, g.id ≠ r.id) ∧
    List.Pairwise (fun a b => threadNameLe a b = true)
      (getUpdatedThreads games db) := by
  constructor
  · intro r
    unfold getUpdatedThreads
    simp only [List.mem_filter, List.mem_mergeSort]
    constructor
    · rintro ⟨⟨hmem, hflags⟩, hgames⟩
      simp only [Bool.and_eq_true, Bool.not_eq_true'] at hflags
      refine ⟨hmem, hflags.1, hflags.2, fun g hg heq => ?_⟩
      have hin : g ∈ games.filter (fun g => g.id == r.id) :=
        List.mem_filter.mpr ⟨hg, by simp [heq]⟩
      have hemp : games.filter (fun g => g.id == r.id) = [] :=
        List.length_eq_zero.mp (by simpa using hgames)
      rw [hemp] at hin
      cases hin
    · rintro ⟨hmem, h1, h2, hall⟩
      refine ⟨⟨hmem, by simp [h1, h2]⟩, ?_⟩
      have hemp : games.filter (fun g => g.id == r.id) = [] :=
        List.filter_eq_nil_iff.mpr (fun g hg => by
          simpa using hall g hg)
      simp [hemp]
  · exact List.Pairwise.sublist (List.filter_sublist _)
      (@List.sorted_mergeSort ThreadRecord threadNameLe threadNameLe_trans
        threadNameLe_total _)

/-- Witness for `getUpdatedThreads_spec` at a concrete store and library. -/
theorem getUpdatedThreads_spec_witness :
    ((⟨1, 2, "u2", "a", true, false⟩ : ThreadRecord) ∈
        getUpdatedThreads installedGamesWitness updatedThreadDBWitness ↔
      (⟨1, 2, "u2", "a", true, false⟩ : ThreadRecord) ∈
          updatedThreadDBWitness.recs ∧
        true = true ∧ false = false ∧
        ∀ g ∈ installedGamesWitness, g.id ≠ 2) ∧
    List.Pairwise (fun a b => threadNameLe a b = true)
      (getUpdatedThreads installedGamesWitness updatedThreadDBWitness) :=
  ⟨(getUpdatedThreads_spec installedGamesWitness updatedThreadDBWitness).1
      ⟨1, 2, "u2", "a", true, false⟩,
   (getUpdatedThreads_spec installedGamesWitness updatedThreadDBWitness).2⟩

/-! ## Store lemmas for the synchronizer (C1 and C3) -/

theorem runWatchUrls_ids (remote : String → TGameInfo) :
    ∀ (L : List String) (db : ThreadDB),
    (runWatchUrls remote db L).2.1 = extractedIds L := by
  intro L
  induction L with
  | nil => intro db; rfl
  | cons u rest ih =>
    intro db
    cases he : extractThreadId u with
    | none => simp only [runWatchUrls, extractedIds, he]; exact ih db
    | some i => simp only [runWatchUrls, extractedIds, he]; rw [ih]

theorem extractedIds_mem : ∀ (L : List String) (u : String) (i : Nat),
    u ∈ L → extractThreadId u = some i → i ∈ extractedIds L := by
  intro L
  induction L with
  | nil => intro u i hu _; cases hu
  | cons v rest ih =>
    intro u i hu hei
    rcases List.mem_cons.mp hu with rfl | hurest
    · simp only [extractedIds, hei]
      exact List.mem_cons_self _ _
    · cases he : extractThreadId v with
      | none => simp only [extractedIds, he]; exact ih u i hurest hei
      | some j =>
        simp only [extractedIds, he]
        exact List.mem_cons_of_mem _ (ih u i hurest hei)

theorem filter_id_map_replace :
    ∀ (recs : List ThreadRecord) (t r : ThreadRecord) (i : Nat)
      (ts : List ThreadRecord),
    (recs.map (fun x => x.dbId)).Nodup →
    recs.filter (fun x => x.id == i) = t :: ts →
    r.dbId = t.dbId → (r.id == i) = true →
    (recs.map (fun x => if x.dbId == r.dbId then r else x)).filter
      (fun x => x.id == i) = r :: ts := by
  intro recs
  induction recs with
  | nil =>
    intro t r i ts _ hf
    simp at hf
  | cons x xs ih =>
    intro t r i ts hnd hf hdb hr
    rw [List.map_cons] at hnd
    have hnd1 := (List.nodup_cons.mp hnd).1
    have hnd2 := (List.nodup_cons.mp hnd).2
    by_cases hx : (x.id == i) = true
    · rw [List.filter_cons, if_pos hx] at hf
      have hf1 : x = t := (List.cons.injEq _ _ _ _ ▸ hf).1
      have hf2 : xs.filter (fun y => y.id == i) = ts :=
        (List.cons.injEq _ _ _ _ ▸ hf).2
      have hxr : (x.dbId == r.dbId) = true := by
        rw [hdb, hf1]
        simp
      have hmap : xs.map (fun y => if y.dbId == r.dbId then r else y) = xs := by
        have hpt : ∀ y ∈ xs, (if y.dbId == r.dbId then r else y) = y := by
          intro y hy
          rw [if_neg]
          intro hc
          apply hnd1
          have : y.dbId = x.dbId := by
            have hyr : y.dbId = r.dbId := by simpa using hc
            rw [hyr, hdb, hf1]
          rw [← this]
          exact List.mem_map.mpr ⟨y, hy, rfl⟩
        rw [List.map_congr_left hpt]
        simp
      rw [List.map_cons, hmap]
      rw [if_pos hxr]
      rw [List.filter_cons, if_pos hr, hf2]
    · rw [List.filter_cons, if_neg hx] at hf
      have htxs : t ∈ xs := by
        have : t ∈ xs.filter (fun y => y.id == i) := by
          rw [hf]
          exact List.mem_cons_self _ _
        exact (List.mem_filter.mp this).1
      have hxt : ¬x.dbId = t.dbId := fun h => hnd1 (by
        rw [h]
        exact List.mem_map.mpr ⟨t, htxs, rfl⟩)
      rw [List.map_cons, if_neg (by rw [hdb]; simpa using hxt)]
      rw [List.filter_cons, if_neg hx]
      exact ih t r i ts hnd2 hf hdb hr

theorem filter_map_replace_other :
    ∀ (recs : List ThreadRecord) (t r : ThreadRecord) (i : Nat),
    (recs.map (fun x => x.dbId)).Nodup →
    t ∈ recs → (t.id == i) = false → (r.id == i) = false → r.dbId = t.dbId →
    (recs.map (fun x => if x.dbId == r.dbId then r else x)).filter
      (fun x => x.id == i) = recs.filter (fun x => x.id == i) := by
  intro recs
  induction recs with
  | nil => intro t r i _ ht; cases ht
  | cons x xs ih =>
    intro t r i hnd ht hti hri hdb
    rw [List.map_cons] at hnd
    have hnd1 := (List.nodup_cons.mp hnd).1
    have hnd2 := (List.nodup_cons.mp hnd).2
    rcases List.mem_cons.mp ht with rfl | htxs
    · have hxr : (t.dbId == r.dbId) = true := by
        rw [hdb]
        simp
      have hmap : xs.map (fun y => if y.dbId == r.dbId then r else y) = xs := by
        have hpt : ∀ y ∈ xs, (if y.dbId == r.dbId then r else y) = y := by
          intro y hy
          rw [if_neg]
          intro hc
          apply hnd1
          have hyx : y.dbId = t.dbId := by
            have hyr : y.dbId = r.dbId := by simpa using hc
            rw [hyr, hdb]
          rw [← hyx]
          exact List.mem_map.mpr ⟨y, hy, rfl⟩
        rw [List.map_congr_left hpt]
        simp
      rw [List.map_cons, hmap, if_pos hxr]
      rw [List.filter_cons, List.filter_cons, if_neg (by simp [hri]),
        if_neg (by simp [hti])]
    · have hxt : ¬x.dbId = t.dbId := fun h => hnd1 (by
        rw [h]
        exact List.mem_map.mpr ⟨t, htxs, rfl⟩)
      rw [List.map_cons, if_neg (by rw [hdb]; simpa using hxt)]
      rw [List.filter_cons, List.filter_cons]
      by_cases hxi : (x.id == i) = true
      · rw [if_pos hxi, if_pos hxi, ih t r i hnd2 htxs hti hri hdb]
      · rw [if_neg hxi, if_neg hxi]
        exact ih t r i hnd2 htxs hti hri hdb

theorem processWatchUrl_search_self (remote : String → TGameInfo)
    (db : ThreadDB) (url : String) (i : Nat)
    (hid : (remote url).id = i) (hurl : (remote url).url = url)
    (hnd : (db.recs.map (fun x => x.dbId)).Nodup) :
    ∃ t ts, searchThreadById (processWatchUrl remote db url i).1 i = t :: ts ∧
      t.url = url := by
  cases hs : searchThreadById db i with
  | nil =>
    refine ⟨convertThread (remote url) db.nextId, [], ?_, hurl⟩
    unfold searchThreadById at hs ⊢
    simp only [processWatchUrl, searchThreadById, hs]
    rw [List.filter_append, hs]
    simp [convertThread, hid]
  | cons t ts =>
    by_cases hu : t.url = url
    · exact ⟨t, ts, by simp [processWatchUrl, hs, hu], hu⟩
    · refine ⟨updatedThreadRecord remote url t.dbId, ts, ?_, by
        simp [updatedThreadRecord, convertThread, hurl]⟩
      simp only [processWatchUrl, hs, hu, if_neg hu]
      unfold searchThreadById
      exact filter_id_map_replace db.recs t _ i ts hnd hs rfl
        (by simp [updatedThreadRecord, convertThread, hid])

theorem processWatchUrl_search_other (remote : String → TGameInfo)
    (db : ThreadDB) (url : String) (j i : Nat)
    (hne : j ≠ i) (hid : (remote url).id = j)
    (hnd : (db.recs.map (fun x => x.dbId)).Nodup) :
    searchThreadById (processWatchUrl remote db url j).1 i =
      searchThreadById db i := by
  cases hs : searchThreadById db j with
  | nil =>
    simp only [processWatchUrl, hs]
    unfold searchThreadById
    rw [List.filter_append]
    simp [convertThread, hid, hne]
  | cons t ts =>
    by_cases hu : t.url = url
    · simp [processWatchUrl, hs, hu]
    · simp only [processWatchUrl, hs, hu, if_neg hu]
      unfold searchThreadById
      have htmem : t ∈ db.recs ∧ (t.id == j) = true := by
        have : t ∈ db.recs.filter (fun x => x.id == j) := by
          unfold searchThreadById at hs
          rw [hs]
          exact List.mem_cons_self _ _
        exact List.mem_filter.mp this
      refine filter_map_replace_other db.recs t _ i hnd htmem.1 ?_ ?_ rfl
      · have : t.id = j := by simpa using htmem.2
        simp [this, hne]
      · simp [updatedThreadRecord, convertThread, hid, hne]

theorem WF_processWatchUrl (remote : String → TGameInfo) (db : ThreadDB)
    (url : String) (i : Nat) (h : WFThreadDB db) :
    WFThreadDB (processWatchUrl remote db url i).1 := by
  obtain ⟨hnd, hlt⟩ := h
  cases hs : searchThreadById db i with
  | nil =>
    refine ⟨?_, ?_⟩
    · simp only [processWatchUrl, hs]
      rw [List.map_append, List.nodup_append]
      refine ⟨hnd, by simp, ?_⟩
      intro x hx hy
      simp only [List.map_cons, List.map_nil, List.mem_singleton,
        convertThread] at hy
      rcases List.mem_map.mp hx with ⟨rr, hrr, hrx⟩
      rw [← hrx] at hy
      exact absurd (hy ▸ hlt rr hrr) (Nat.lt_irrefl _)
    · intro r hr
      simp only [processWatchUrl, hs] at hr ⊢
      rcases List.mem_append.mp hr with h1 | h1
      · exact Nat.lt_trans (hlt r h1) (Nat.lt_succ_self _)
      · rw [List.mem_singleton] at h1
        rw [h1]
        exact Nat.lt_succ_self _
  | cons t ts =>
    have htmem : t ∈ db.recs := by
      have : t ∈ db.recs.filter (fun x => x.id == i) := by
        unfold searchThreadById at hs
        rw [hs]
        exact List.mem_cons_self _ _
      exact (List.mem_filter.mp this).1
    by_cases hu : t.url = url
    · simp only [processWatchUrl, hs, if_pos hu]
      exact ⟨hnd, hlt⟩
    · refine ⟨?_, ?_⟩
      · simp only [processWatchUrl, hs, if_neg hu]
        have hmm :
            (db.recs.map (fun x =>
              if x.dbId == (updatedThreadRecord remote url t.dbId).dbId then
                updatedThreadRecord remote url t.dbId
              else x)).map (fun x => x.dbId) =
            db.recs.map (fun x => x.dbId) := by
          rw [List.map_map]
          apply List.map_congr_left
          intro y _
          by_cases hd : (y.dbId == (updatedThreadRecord remote url t.dbId).dbId) = true
          · simp only [Function.comp, hd, if_pos hd]
            have : y.dbId = t.dbId := by
              simpa [updatedThreadRecord, convertThread] using hd
            simp [updatedThreadRecord, convertThread, this]
          · simp only [Function.comp]
            rw [if_neg hd]
        rw [hmm]
        exact hnd
      · intro r hr
        simp only [processWatchUrl, hs, if_neg hu] at hr ⊢
        rcases List.mem_map.mp hr with ⟨y, hy, hyr⟩
        by_cases hd : (y.dbId == (updatedThreadRecord remote url t.dbId).dbId) = true
        · rw [if_pos hd] at hyr
          rw [← hyr]
          simp only [updatedThreadRecord, convertThread]
          exact hlt t htmem
        · rw [if_neg (by simpa using hd)] at hyr
          rw [← hyr]
          exact hlt y hy

theorem WF_runWatchUrls (remote : String → TGameInfo) :
    ∀ (L : List String) (db : ThreadDB), WFThreadDB db →
    WFThreadDB (runWatchUrls remote db L).1 := by
  intro L
  induction L with
  | nil => intro db h; exact h
  | cons u rest ih =>
    intro db h
    cases he : extractThreadId u with
    | none => simp only [runWatchUrls, he]; exact ih db h
    | some i =>
      simp only [runWatchUrls, he]
      exact ih _ (WF_processWatchUrl remote db u i h)

theorem runWatchUrls_search_preserved (remote : String → TGameInfo) :
    ∀ (L : List String) (db : ThreadDB) (u : String) (i : Nat)
      (t : ThreadRecord) (ts : List ThreadRecord),
    WFThreadDB db →
    (∀ v ∈ L, ∀ j, extractThreadId v = some j →
      (remote v).id = j ∧ (remote v).url = v) →
    (∀ v ∈ L, extractThreadId v = some i → v = u) →
    searchThreadById db i = t :: ts → t.url = u →
    searchThreadById (runWatchUrls remote db L).1 i = t :: ts := by
  intro L
  induction L with
  | nil => intro db u i t ts _ _ _ hs _; exact hs
  | cons v rest ih =>
    intro db u i t ts hWF h1 huniq hs hturl
    cases he : extractThreadId v with
    | none =>
      simp only [runWatchUrls, he]
      exact ih db u i t ts hWF
        (fun w hw => h1 w (List.mem_cons_of_mem _ hw))
        (fun w hw => huniq w (List.mem_cons_of_mem _ hw)) hs hturl
    | some j =>
      simp only [runWatchUrls, he]
      by_cases hji : j = i
      · subst hji
        have hv : v = u := huniq v (List.mem_cons_self _ _) he
        subst hv
        have hstep : processWatchUrl remote db v j = (db, []) := by
          simp [processWatchUrl, hs, hturl]
        rw [hstep]
        exact ih db v j t ts hWF
          (fun w hw => h1 w (List.mem_cons_of_mem _ hw))
          (fun w hw => huniq w (List.mem_cons_of_mem _ hw)) hs hturl
      · have hstep := processWatchUrl_search_other remote db v j i hji
          ((h1 v (List.mem_cons_self _ _) j he).1) hWF.1
        exact ih _ u i t ts (WF_processWatchUrl remote db v j hWF)
          (fun w hw => h1 w (List.mem_cons_of_mem _ hw))
          (fun w hw => huniq w (List.mem_cons_of_mem _ hw))
          (hstep.trans hs) hturl

theorem runWatchUrls_search_mem (remote : String → TGameInfo) :
    ∀ (L : List String) (db : ThreadDB) (u : String) (i : Nat),
    WFThreadDB db →
    (∀ v ∈ L, ∀ j, extractThreadId v = some j →
      (remote v).id = j ∧ (remote v).url = v) →
    (∀ v1 ∈ L, ∀ v2 ∈ L, ∀ j, extractThreadId v1 = some j →
      extractThreadId v2 = some j → v1 = v2) →
    u ∈ L → extractThreadId u = some i →
    ∃ t ts, searchThreadById (runWatchUrls remote db L).1 i = t :: ts ∧
      t.url = u := by
  intro L
  induction L with
  | nil => intro db u i _ _ _ hu; cases hu
  | cons v rest ih =>
    intro db u i hWF h1 h2 hu hei
    rcases List.mem_cons.mp hu with rfl | hurest
    · simp only [runWatchUrls, hei]
      obtain ⟨hid, hurl⟩ := h1 u (List.mem_cons_self _ _) i hei
      obtain ⟨t, ts, hsearch, hturl⟩ :=
        processWatchUrl_search_self remote db u i hid hurl hWF.1
      refine ⟨t, ts, ?_, hturl⟩
      exact runWatchUrls_search_preserved remote rest _ u i t ts
        (WF_processWatchUrl remote db u i hWF)
        (fun w hw => h1 w (List.mem_cons_of_mem _ hw))
        (fun w hw hwi =>
          h2 w (List.mem_cons_of_mem _ hw) u (List.mem_cons_self _ _) i hwi hei)
        hsearch hturl
    · cases he : extractThreadId v with
      | none =>
        simp only [runWatchUrls, he]
        exact ih db u i hWF
          (fun w hw => h1 w (List.mem_cons_of_mem _ hw))
          (fun w1 hw1 w2 hw2 =>
            h2 w1 (List.mem_cons_of_mem _ hw1) w2 (List.mem_cons_of_mem _ hw2))
          hurest hei
      | some j =>
        simp only [runWatchUrls, he]
        exact ih _ u i (WF_processWatchUrl remote db v j hWF)
          (fun w hw => h1 w (List.mem_cons_of_mem _ hw))
          (fun w1 hw1 w2 hw2 =>
            h2 w1 (List.mem_cons_of_mem _ hw1) w2 (List.mem_cons_of_mem _ hw2))
          hurest hei

theorem removeUnsubscribed_search (db : ThreadDB) (ids : List Nat) (i : Nat)
    (hmem : ids.contains i = true) :
    searchThreadById (removeUnsubscribed db ids).1 i =
      searchThreadById db i := by
  unfold removeUnsubscribed searchThreadById
  simp only []
  rw [List.filter_filter]
  apply List.filter_congr
  intro x _
  by_cases hx : (x.id == i) = true
  · have hxi : x.id = i := by simpa using hx
    rw [hx]
    rw [hxi, hmem]
    rfl
  · rw [(by simpa using hx : (x.id == i) = false)]
    simp

theorem sync_search_after (remote : String → TGameInfo) (L : List String)
    (db : ThreadDB) (u : String) (i : Nat)
    (hWF : WFThreadDB db)
    (h1 : ∀ v ∈ L, ∀ j, extractThreadId v = some j →
      (remote v).id = j ∧ (remote v).url = v)
    (h2 : ∀ v1 ∈ L, ∀ v2 ∈ L, ∀ j, extractThreadId v1 = some j →
      extractThreadId v2 = some j → v1 = v2)
    (hu : u ∈ L) (hei : extractThreadId u = some i) :
    ∃ t ts, searchThreadById (syncDatabaseWatchedThreads remote db L) i =
      t :: ts ∧ t.url = u := by
  obtain ⟨t, ts, hs, ht⟩ :=
    runWatchUrls_search_mem remote L db u i hWF h1 h2 hu hei
  refine ⟨t, ts, ?_, ht⟩
  unfold syncDatabaseWatchedThreads syncDatabaseWatchedThreadsOps
  simp only []
  rw [removeUnsubscribed_search _ _ i ?_]
  · exact hs
  · rw [runWatchUrls_ids]
    exact (contains_eq_true_iff _ _).mpr (extractedIds_mem L u i hu hei)

theorem sync_recs_ids (remote : String → TGameInfo) (L : List String)
    (db : ThreadDB) :
    ∀ r ∈ (syncDatabaseWatchedThreads remote db L).recs,
      (extractedIds L).contains r.id = true := by
  intro r hr
  unfold syncDatabaseWatchedThreads syncDatabaseWatchedThreadsOps
    removeUnsubscribed at hr
  simp only [] at hr
  have hm := List.mem_filter.mp hr
  rw [runWatchUrls_ids] at hm
  exact hm.2

theorem runWatchUrls_noop (remote : String → TGameInfo) :
    ∀ (L : List String) (db : ThreadDB),
    (∀ u ∈ L, ∀ i, extractThreadId u = some i →
      ∃ t ts, searchThreadById db i = t :: ts ∧ t.url = u) →
    runWatchUrls remote db L = (db, extractedIds L, []) := by
  intro L
  induction L with
  | nil => intro db _; rfl
  | cons u rest ih =>
    intro db h
    cases he : extractThreadId u with
    | none =>
      simp only [runWatchUrls, extractedIds, he]
      exact ih db (fun w hw => h w (List.mem_cons_of_mem _ hw))
    | some i =>
      obtain ⟨t, ts, hs, ht⟩ := h u (List.mem_cons_self _ _) i he
      have hstep : processWatchUrl remote db u i = (db, []) := by
        simp [processWatchUrl, hs, ht]
      simp only [runWatchUrls, extractedIds, he, hstep]
      rw [ih db (fun w hw => h w (List.mem_cons_of_mem _ hw))]
      rfl

theorem removeUnsubscribed_noop (db : ThreadDB) (ids : List Nat)
    (h : ∀ r ∈ db.recs, ids.contains r.id = true) :
    removeUnsubscribed db ids = (db, []) := by
  unfold removeUnsubscribed
  rw [List.filter_eq_self.mpr h]
  have hemp : db.recs.filter (fun t => !(ids.contains t.id)) = [] :=
    List.filter_eq_nil_iff.mpr (fun r hr => by rw [h r hr]; simp)
  rw [hemp]
  rfl

theorem runWatchUrls_search_ne_nil (remote : String → TGameInfo) :
    ∀ (L : List String) (db : ThreadDB) (i : Nat),
    WFThreadDB db →
    (∀ v ∈ L, ∀ j, extractThreadId v = some j → (remote v).id = j) →
    searchThreadById db i ≠ [] →
    searchThreadById (runWatchUrls remote db L).1 i ≠ [] := by
  intro L
  induction L with
  | nil => intro db i _ _ h; exact h
  | cons v rest ih =>
    intro db i hWF h1 hne
    cases he : extractThreadId v with
    | none =>
      simp only [runWatchUrls, he]
      exact ih db i hWF (fun w hw => h1 w (List.mem_cons_of_mem _ hw)) hne
    | some j =>
      simp only [runWatchUrls, he]
      apply ih _ i (WF_processWatchUrl remote db v j hWF)
        (fun w hw => h1 w (List.mem_cons_of_mem _ hw))
      by_cases hji : j = i
      · subst hji
        cases hs : searchThreadById db j with
        | nil => exact absurd hs hne
        | cons t ts =>
          by_cases hu : t.url = v
          · rw [(by simp [processWatchUrl, hs, hu] :
              processWatchUrl remote db v j = (db, []))]
            exact hne
          · simp only [processWatchUrl, hs, if_neg hu]
            unfold searchThreadById
            rw [filter_id_map_replace db.recs t
              (updatedThreadRecord remote v t.dbId) j ts hWF.1 hs rfl
              (by simp [updatedThreadRecord, convertThread,
                h1 v (List.mem_cons_self _ _) j he])]
            simp
      · rw [processWatchUrl_search_other remote db v j i hji
          (h1 v (List.mem_cons_self _ _) j he) hWF.1]
        exact hne

theorem runWatchUrls_no_del (remote : String → TGameInfo) :
    ∀ (L : List String) (db : ThreadDB) (d : Nat),
    DBOp.del d ∉ (runWatchUrls remote db L).2.2 := by
  intro L
  induction L with
  | nil => intro db d h; cases h
  | cons u rest ih =>
    intro db d
    cases he : extractThreadId u with
    | none => simp only [runWatchUrls, he]; exact ih db d
    | some i =>
      simp only [runWatchUrls, he]
      intro hmem
      rcases List.mem_append.mp hmem with h1 | h1
      · cases hs : searchThreadById db i with
        | nil => simp [processWatchUrl, hs] at h1
        | cons t ts =>
          by_cases hu : t.url = u
          · simp [processWatchUrl, hs, hu] at h1
          · simp [processWatchUrl, hs, hu] at h1
      · exact ih _ d h1

/-! ## C1: idempotence of the sync pass -/

/-- C1 counterexample: with a remote catalog whose returned record URL
(`"s.1"`) differs from the watch URL (`"t.1"`), running the sync twice from
the empty (reachable) store is not a no-op on the second run: the second pass
rewrites the record (flipping `updateAvailable` to `true`), so the store
state after the second run differs from the state after the first and the
second pass performs a store operation. -/
theorem syncTwice_counterexample :
    syncDatabaseWatchedThreads remoteUrlMismatch
        (syncDatabaseWatchedThreads remoteUrlMismatch emptyThreadDB ["t.1"])
        ["t.1"] ≠
      syncDatabaseWatchedThreads remoteUrlMismatch emptyThreadDB ["t.1"] ∧
    (syncDatabaseWatchedThreadsOps remoteUrlMismatch
        (syncDatabaseWatchedThreads remoteUrlMismatch emptyThreadDB ["t.1"])
        ["t.1"]).2 ≠ [] :=
  ⟨by decide, by decide⟩

/-- C1 (amended): for every URL list `L` and every well-formed store
(pairwise-distinct record `_id`s below the fresh-id counter, an invariant of
every reachable store), if the remote catalog returns for each URL of `L` a
record carrying the extracted id and the watch URL itself, and no two
distinct URLs of `L` share an extracted id, then running `sync(L)` after
`sync(L)` is a no-op: the second pass returns the store of the first pass
unchanged and performs no inserts, no updates, and no deletions. -/
theorem syncTwice_idempotent (remote : String → TGameInfo) (L : List String)
    (db : ThreadDB) (hWF : WFThreadDB db)
    (h1 : ∀ v ∈ L, ∀ j, extractThreadId v = some j →
      (remote v).id = j ∧ (remote v).url = v)
    (h2 : ∀ v1 ∈ L, ∀ v2 ∈ L, ∀ j, extractThreadId v1 = some j →
      extractThreadId v2 = some j → v1 = v2) :
    syncDatabaseWatchedThreadsOps remote
        (syncDatabaseWatchedThreads remote db L) L =
      (syncDatabaseWatchedThreads remote db L, []) := by
  have hA : ∀ u ∈ L, ∀ i, extractThreadId u = some i →
      ∃ t ts, searchThreadById (syncDatabaseWatchedThreads remote db L) i =
        t :: ts ∧ t.url = u :=
    fun u hu i hei => sync_search_after remote L db u i hWF h1 h2 hu hei
  have hrun := runWatchUrls_noop remote L _ hA
  have hrem := removeUnsubscribed_noop (syncDatabaseWatchedThreads remote db L)
    (extractedIds L) (sync_recs_ids remote L db)
  unfold syncDatabaseWatchedThreadsOps
  rw [hrun]
  simp only []
  rw [hrem]
  rfl

/-- Witness for `syncTwice_idempotent` at a concrete remote and URL list. -/
theorem syncTwice_idempotent_witness :
    syncDatabaseWatchedThreadsOps remoteKeepOne
        (syncDatabaseWatchedThreads remoteKeepOne emptyThreadDB ["t.1"])
        ["t.1"] =
      (syncDatabaseWatchedThreads remoteKeepOne emptyThreadDB ["t.1"], []) :=
  syncTwice_idempotent remoteKeepOne ["t.1"] emptyThreadDB
    ⟨by simp [emptyThreadDB], by simp [emptyThreadDB]⟩
    (by
      intro v hv j hj
      rw [List.mem_singleton] at hv
      subst hv
      rw [(by decide : extractThreadId "t.1" = some 1)] at hj
      have hj1 : (1 : Nat) = j := Option.some_inj.mp hj
      subst hj1
      exact ⟨rfl, rfl⟩)
    (by
      intro v1 h1v v2 h2v j _ _
      rw [List.mem_singleton] at h1v h2v
      rw [h1v, h2v])

/-! ## C3: the unsubscribe pass -/

/-- C3: after a sync pass over `L`, every surviving record's id is among the
ids extracted from `L`; a record whose id was extracted from `L` and existed
in the (well-formed) store is never removed — a record with that id is still
present after the pass; every delete operation of the pass stems from the
final unsubscribe sweep and targets a record whose id is not among the
extracted ids; and the resulting store is exactly the single unsubscribe
sweep applied to the result of the insert/update loop, so the deletion pass
runs once, after the loop, not interleaved with it. -/
theorem syncUnsubscribe_spec (remote : String → TGameInfo) (L : List String)
    (db : ThreadDB) (hWF : WFThreadDB db)
    (h1 : ∀ v ∈ L, ∀ j, extractThreadId v = some j → (remote v).id = j) :
    (∀ r ∈ (syncDatabaseWatchedThreads remote db L).recs,
      r.id ∈ extractedIds L) ∧
    (∀ i ∈ extractedIds L, (∃ r ∈ db.recs, r.id = i) →
      ∃ r2 ∈ (syncDatabaseWatchedThreads remote db L).recs, r2.id = i) ∧
    (∀ d : Nat, DBOp.del d ∈ (syncDatabaseWatchedThreadsOps remote db L).2 →
      ∃ r ∈ (runWatchUrls remote db L).1.recs,
        r.dbId = d ∧ r.id ∉ extractedIds L) ∧
    syncDatabaseWatchedThreads remote db L =
      (removeUnsubscribed (runWatchUrls remote db L).1 (extractedIds L)).1 := by
  refine ⟨?_, ?_, ?_, ?_⟩
  · intro r hr
    exact (contains_eq_true_iff _ _).mp (sync_recs_ids remote L db r hr)
  · rintro i hi ⟨r, hr, hri⟩
    have hne : searchThreadById db i ≠ [] := by
      intro hemp
      have hmem : r ∈ searchThreadById db i :=
        List.mem_filter.mpr ⟨hr, by simp [hri]⟩
      rw [hemp] at hmem
      cases hmem
    have hne2 := runWatchUrls_search_ne_nil remote L db i hWF h1 hne
    cases hs : searchThreadById (runWatchUrls remote db L).1 i with
    | nil => exact absurd hs hne2
    | cons t ts =>
      have htm : t ∈ (runWatchUrls remote db L).1.recs ∧ (t.id == i) = true := by
        apply List.mem_filter.mp
        show t ∈ (runWatchUrls remote db L).1.recs.filter (fun x => x.id == i)
        unfold searchThreadById at hs
        rw [hs]
        exact List.mem_cons_self _ _
      refine ⟨t, ?_, by simpa using htm.2⟩
      unfold syncDatabaseWatchedThreads syncDatabaseWatchedThreadsOps
        removeUnsubscribed
      simp only []
      apply List.mem_filter.mpr
      refine ⟨htm.1, ?_⟩
      rw [runWatchUrls_ids]
      apply (contains_eq_true_iff _ _).mpr
      have hti : t.id = i := by simpa using htm.2
      rw [hti]
      exact hi
  · intro d hd
    unfold syncDatabaseWatchedThreadsOps at hd
    simp only [] at hd
    rcases List.mem_append.mp hd with h | h
    · exact absurd h (runWatchUrls_no_del remote L db d)
    · unfold removeUnsubscribed at h
      simp only [] at h
      rcases List.mem_map.mp h with ⟨r, hr, hrd⟩
      have hrf := List.mem_filter.mp hr
      refine ⟨r, hrf.1, ?_, ?_⟩
      · injection hrd
      · intro hmem
        have hcon : (runWatchUrls remote db L).2.1.contains r.id = true := by
          rw [runWatchUrls_ids]
          exact (contains_eq_true_iff _ _).mpr hmem
        rw [hcon] at hrf
        simpa using hrf.2
  · unfold syncDatabaseWatchedThreads syncDatabaseWatchedThreadsOps
    simp only []
    rw [runWatchUrls_ids]

/-- Witness for `syncUnsubscribe_spec` at a concrete store and URL list. -/
theorem syncUnsubscribe_spec_witness :
    (∀ r ∈ (syncDatabaseWatchedThreads remoteKeepOne threadDBOne ["a.1"]).recs,
      r.id ∈ extractedIds ["a.1"]) ∧
    (∀ i ∈ extractedIds ["a.1"], (∃ r ∈ threadDBOne.recs, r.id = i) →
      ∃ r2 ∈ (syncDatabaseWatchedThreads remoteKeepOne threadDBOne
        ["a.1"]).recs, r2.id = i) ∧
    (∀ d : Nat,
      DBOp.del d ∈
        (syncDatabaseWatchedThreadsOps remoteKeepOne threadDBOne ["a.1"]).2 →
      ∃ r ∈ (runWatchUrls remoteKeepOne threadDBOne ["a.1"]).1.recs,
        r.dbId = d ∧ r.id ∉ extractedIds ["a.1"]) ∧
    syncDatabaseWatchedThreads remoteKeepOne threadDBOne ["a.1"] =
      (removeUnsubscribed (runWatchUrls remoteKeepOne threadDBOne ["a.1"]).1
        (extractedIds ["a.1"])).1 :=
  syncUnsubscribe_spec remoteKeepOne ["a.1"] threadDBOne
    ⟨by simp [threadDBOne], by simp [threadDBOne]⟩
    (by
      intro v hv j hj
      rw [List.mem_singleton] at hv
      subst hv
      rw [(by decide : extractThreadId "a.1" = some 1)] at hj
      have hj1 : (1 : Nat) = j := Option.some_inj.mp hj
      subst hj1
      rfl)

end YAM
